import Mathlib

/-!
Verification of the `ord-by-set` container (a weakly ordered multi-set backed by a
sorted `Vec<T>` plus a user-supplied orderer).

The Rust source is shallowly embedded: the container is a structure holding a list
`storage` and a comparison function `orderer` returning `Ordering`; each public
method of `OrdBySet` is translated to a Lean function on that structure.  Rust's
`slice::binary_search_by` and `slice::partition_point` are embedded by their actual
algorithms (fuel-indexed midpoint bisection, the fuel being an upper bound on the
interval width, so the embedding is total and computes by kernel reduction).
Mutation through guards or plain mutable references is modelled by explicit
functions that take the caller's mutation as a function argument and produce the
container state observable after the borrow ends.
-/

/-- Validity contract of an orderer, from the `Order<T>` documentation: exactly one
of `a < b`, `a == b`, `a > b` holds (expressed as consistency of the two argument
orders, which forces irreflexivity of `lt`/`gt`), and `lt` and `eq` are transitive
(transitivity of `gt` follows).  This is the strict-weak-order contract. -/
structure IsSWO {T : Type} (ord : T → T → Ordering) : Prop where
  swap_eq : ∀ a b, ord b a = (ord a b).swap
  lt_trans : ∀ {a b c}, ord a b = .lt → ord b c = .lt → ord a c = .lt
  eq_trans : ∀ {a b c}, ord a b = .eq → ord b c = .eq → ord a c = .eq

/-!
Embedding of `core::slice::binary_search_by`: midpoint bisection over the index
interval `[left, right)`.  The `fuel` argument is an upper bound on `right - left`
so that the recursion is structural; with enough fuel the function runs the exact
Rust loop.  `Except.ok i` embeds `Ok(i)` (an orderer-equal element was probed at
index `i`), `Except.error p` embeds `Err(p)` (the insertion point `p`).
Rust documents that when several elements match, any one of the matching indices
may be returned; the classic midpoint variant embedded here is one such choice,
and every property proved about it below relies only on the documented contract
(the `ok` index holds a matching element; the `error` index is the watermark).
-/
def bsGo {T : Type} (f : T → Ordering) (xs : List T) : Nat → Nat → Nat → Except Nat Nat
  | 0, left, _ => .error left
  | fuel + 1, left, right =>
    if left < right then
      let mid := left + (right - left) / 2
      match xs[mid]? with
      | none => .error left
      | some v =>
        match f v with
        | .lt => bsGo f xs fuel (mid + 1) right
        | .eq => .ok mid
        | .gt => bsGo f xs fuel left mid
    else .error left

/-- Embedding of `slice::binary_search_by(f)` on the whole storage. -/
def binarySearchBy {T : Type} (f : T → Ordering) (xs : List T) : Except Nat Nat :=
  bsGo f xs xs.length 0 xs.length

/-- Embedding of `slice::partition_point(pred)`, which Rust implements as
`binary_search_by(|x| if pred(x) { Less } else { Greater }).unwrap_or_else(|i| i)`. -/
def partitionPoint {T : Type} (pred : T → Bool) (xs : List T) : Nat :=
  match binarySearchBy (fun x => if pred x then .lt else .gt) xs with
  | .ok i => i
  | .error i => i

/-- The probe function is monotone along the list: later elements never compare
smaller, earlier elements never compare larger.  Holds for `fun x => ord x item`
whenever the list is sorted by a valid strict weak order. -/
def MonoOn {T : Type} (f : T → Ordering) (xs : List T) : Prop :=
  ∀ i j (hi : i < xs.length) (hj : j < xs.length), i ≤ j →
    (f xs[j] = .lt → f xs[i] = .lt) ∧ (f xs[i] = .gt → f xs[j] = .gt)

/-- The Boolean predicate holds on a downward-closed set of indices. -/
def DownClosed {T : Type} (pred : T → Bool) (xs : List T) : Prop :=
  ∀ i j (hi : i < xs.length) (hj : j < xs.length), i ≤ j →
    pred xs[j] = true → pred xs[i] = true

/-- The container: a contiguous storage sequence plus its orderer
(`struct OrdBySet<T, Orderer> { storage: Vec<T>, orderer: Orderer }`).  The orderer
is embedded directly as its `order_of` comparison function. -/
structure OrdBySet (T : Type) where
  storage : List T
  orderer : T → T → Ordering

/-- Embedding of `FullOrd`, the orderer delegating to the value's own total order
(`left.cmp(right)`). -/
def fullOrd (T : Type) [Ord T] : T → T → Ordering := fun left right => compare left right

/-- Embedding of `Order::sort_slice`'s default body
`items.sort_by(|left, right| self.order_of(&left, &right))`.  Rust's `sort_by` is a
stable sort ascending per the comparator; it is embedded as the stable merge sort
with the derived `is_le` relation. -/
def sortSlice {T : Type} (ord : T → T → Ordering) (items : List T) : List T :=
  items.mergeSort (fun left right => (ord left right).isLE)

namespace OrdBySet

variable {T : Type}

/-- Embedding of `OrdBySet::new_with_order`. -/
def new_with_order (orderer : T → T → Ordering) : OrdBySet T :=
  { storage := [], orderer := orderer }

/-- The insertion index computed by `insert`:
`storage.binary_search_by(|x| orderer.order_of(&x, &item)).unwrap_or_else(|i| i)`. -/
def insertionPoint (s : OrdBySet T) (item : T) : Nat :=
  match binarySearchBy (fun x => s.orderer x item) s.storage with
  | .ok i => i
  | .error i => i

/-- Embedding of `OrdBySet::insert`. -/
def insert (s : OrdBySet T) (item : T) : OrdBySet T :=
  { s with storage := s.storage.insertIdx (s.insertionPoint item) item }

/-- A sequence of `insert` calls, used to state properties over insertion
sequences. -/
def insertAll (s : OrdBySet T) (items : List T) : OrdBySet T :=
  items.foldl OrdBySet.insert s

/-- Embedding of `OrdBySet::get_index_range_of`: `start` is the partition point of
the is-less predicate, `len` the partition point of the is-equal predicate on the
suffix, and the range `start..end` is returned when nonempty. -/
def get_index_range_of (s : OrdBySet T) (item : T) : Option (Nat × Nat) :=
  let start := partitionPoint (fun probe => (s.orderer probe item).isLT) s.storage
  let len := partitionPoint (fun probe => (s.orderer probe item).isEq) (s.storage.drop start)
  let stop := start + len
  if start < stop then some (start, stop) else none

/-- Embedding of `OrdBySet::remove_all`, returning the Rust return value paired
with the container state after the call. -/
def remove_all (s : OrdBySet T) (item : T) : Bool × OrdBySet T :=
  match s.get_index_range_of item with
  | some (a, b) => (true, { s with storage := s.storage.take a ++ s.storage.drop b })
  | none => (false, s)

/-- Embedding of `OrdBySet::remove_first`, returning the Rust return value paired
with the container state after the call. -/
def remove_first (s : OrdBySet T) (item : T) : Option T × OrdBySet T :=
  match s.get_index_range_of item with
  | some (a, b) =>
    if a < b then (s.storage[a]?, { s with storage := s.storage.eraseIdx a })
    else (none, s)
  | none => (none, s)

/-- Embedding of `OrdBySet::drain`, returning the drained elements paired with the
container state after the call. -/
def drain (s : OrdBySet T) (item : T) : List T × OrdBySet T :=
  match s.get_index_range_of item with
  | some (a, b) =>
    ((s.storage.drop a).take (b - a), { s with storage := s.storage.take a ++ s.storage.drop b })
  | none => ([], s)

/-- Embedding of `OrdBySet::get` (the slice `storage[a..b]` is the length-`b - a`
window starting at `a`). -/
def get (s : OrdBySet T) (item : T) : Option (List T) :=
  (s.get_index_range_of item).map (fun r => (s.storage.drop r.1).take (r.2 - r.1))

/-- Embedding of `OrdBySet::get_first`: direct binary search, then `storage.get`. -/
def get_first (s : OrdBySet T) (item : T) : Option T :=
  match binarySearchBy (fun x => s.orderer x item) s.storage with
  | .ok index => s.storage[index]?
  | .error _ => none

/-- Embedding of `OrdBySet::contains`: `binary_search_by(..).is_ok()`. -/
def contains (s : OrdBySet T) (item : T) : Bool :=
  match binarySearchBy (fun x => s.orderer x item) s.storage with
  | .ok _ => true
  | .error _ => false

/-- Embedding of `OrdBySet::count`. -/
def count (s : OrdBySet T) (item : T) : Nat :=
  match s.get_index_range_of item with
  | some (a, b) => b - a
  | none => 0

/-- Embedding of `OrdBySet::with_items`: replaces the storage and sorts it with
the orderer's `sort_slice`. -/
def with_items (s : OrdBySet T) (items : List T) : OrdBySet T :=
  { s with storage := sortSlice s.orderer items }

/-- Embedding of `OrdBySet::range_to_index_range`. -/
def range_to_index_range (s : OrdBySet T) (low high : T) : Option (Nat × Nat) :=
  if !(s.orderer low high).isLT then none
  else
    let start := partitionPoint (fun probe => (s.orderer probe low).isLT) s.storage
    let len := partitionPoint (fun probe => (s.orderer probe high).isLE) (s.storage.drop start)
    let stop := start + len
    if start < stop then some (start, stop) else none

/-- Embedding of `OrdBySet::range`. -/
def range (s : OrdBySet T) (low high : T) : Option (List T) :=
  (s.range_to_index_range low high).map (fun r => (s.storage.drop r.1).take (r.2 - r.1))

end OrdBySet

namespace OrdBySet

variable {T : Type}

/-- Embedding of `OrdBySet::get_specific` (for `T: PartialEq`): the value-level
exact equality of `T` is passed explicitly as `peq`.  The code computes the
equal-range, linearly scans it (`iter().position(|x| x == val)`), and reads the
element at `position + start`. -/
def get_specific (peq : T → T → Bool) (s : OrdBySet T) (val : T) : Option T :=
  match s.get_index_range_of val with
  | none => none
  | some (a, b) =>
    match ((s.storage.drop a).take (b - a)).findIdx? (fun x => peq x val) with
    | none => none
    | some i => s.storage[i + a]?

/-- Embedding of `OrdBySet::remove_specific`, returning the Rust return value
paired with the container state after the call (`storage.remove(index)` removes
and returns the element at `position + start`). -/
def remove_specific (peq : T → T → Bool) (s : OrdBySet T) (val : T) :
    Option T × OrdBySet T :=
  match s.get_index_range_of val with
  | none => (none, s)
  | some (a, b) =>
    match ((s.storage.drop a).take (b - a)).findIdx? (fun x => peq x val) with
    | none => (none, s)
    | some i => (s.storage[i + a]?, { s with storage := s.storage.eraseIdx (i + a) })

/-- Modelled from the spec: `contains_specific` is named by the spec among the
disambiguated accessors but is not present in the sources; per the spec it
computes the equal-range, linearly scans it for an element exactly equal to the
probe, and reports whether one exists. -/
def contains_specific (peq : T → T → Bool) (s : OrdBySet T) (val : T) : Bool :=
  match s.get_index_range_of val with
  | none => false
  | some (a, b) =>
    (((s.storage.drop a).take (b - a)).findIdx? (fun x => peq x val)).isSome

/-- Embedding of `OrdBySet::get_specific_mut` followed by the caller mutating
through the returned plain `&mut T` (no guard is constructed): the element at the
found index is replaced by `f` applied to it, and nothing else happens when the
borrow ends. -/
def get_specific_mut_modify (peq : T → T → Bool) (s : OrdBySet T) (val : T)
    (f : T → T) : OrdBySet T :=
  match s.get_index_range_of val with
  | none => s
  | some (a, b) =>
    match ((s.storage.drop a).take (b - a)).findIdx? (fun x => peq x val) with
    | none => s
    | some i =>
      match s.storage[i + a]? with
      | some v => { s with storage := s.storage.set (i + a) (f v) }
      | none => s

/-- Embedding of `OrdBySet::get_first_mut` followed by the caller mutating through
the returned plain `&mut T` (no guard is constructed): the element at the index
found by binary search is replaced by `f` applied to it, and nothing else happens
when the borrow ends. -/
def get_first_mut_modify (s : OrdBySet T) (item : T) (f : T → T) : OrdBySet T :=
  match binarySearchBy (fun x => s.orderer x item) s.storage with
  | .ok index =>
    match s.storage[index]? with
    | some v => { s with storage := s.storage.set index (f v) }
    | none => s
  | .error _ => s

/-- Embedding of `SliceGuard`'s lifecycle for the index range `a..b`: the caller
mutates the dereferenced window `storage[a..b]` arbitrarily (`f`), and
`Drop::drop` then runs `self.0.orderer.sort_slice(&mut self.0.storage)`
unconditionally on the whole storage. -/
def slice_guard_release (s : OrdBySet T) (a b : Nat) (f : List T → List T) :
    OrdBySet T :=
  { s with storage :=
      (sortSlice s.orderer
        (s.storage.take a ++ f ((s.storage.drop a).take (b - a)) ++ s.storage.drop b)) }

/-- Embedding of `MutRefGuard`'s lifecycle for the index `i`: the caller mutates
the dereferenced element `storage[i]` arbitrarily (`f`), and `Drop::drop` then
runs `self.0.orderer.sort_slice(&mut self.0.storage)` unconditionally on the whole
storage. -/
def mut_ref_guard_release (s : OrdBySet T) (i : Nat) (f : T → T) : OrdBySet T :=
  match s.storage[i]? with
  | some v => { s with storage := sortSlice s.orderer (s.storage.set i (f v)) }
  | none => { s with storage := sortSlice s.orderer s.storage }

/-- Embedding of `OrdBySet::get_mut` followed by an arbitrary caller mutation `f`
of the guarded slice and the guard's release. -/
def get_mut_modify (s : OrdBySet T) (item : T) (f : List T → List T) : OrdBySet T :=
  match s.get_index_range_of item with
  | some (a, b) => slice_guard_release s a b f
  | none => s

/-- Embedding of `OrdBySet::range_mut` followed by an arbitrary caller mutation
`f` of the guarded slice and the guard's release. -/
def range_mut_modify (s : OrdBySet T) (low high : T) (f : List T → List T) :
    OrdBySet T :=
  match s.range_to_index_range low high with
  | some (a, b) => slice_guard_release s a b f
  | none => s

end OrdBySet

/-- The storage invariant: for indices `i < j`, `orderer.order_of(storage[i],
storage[j])` is not `Greater`. -/
def SortedBy {T : Type} (ord : T → T → Ordering) (xs : List T) : Prop :=
  List.Pairwise (fun a b => ord a b ≠ .gt) xs

/-- Spec-side definition for the insertion claim, following the spec's words: the
first index whose element is not less than the item (the length of the list if
every element is less). -/
def specInsertionIndex {T : Type} (ord : T → T → Ordering) (xs : List T) (item : T) : Nat :=
  xs.findIdx (fun x => !(ord x item).isLT)

/-- The orderer of `OrdBySet::fully_ordered` at `T = Nat`, used for concrete
examples and witnesses. -/
def natOrd : Nat → Nat → Ordering := fullOrd Nat

/-- A weak orderer on pairs comparing only the first component, mirroring the
crate's key-field orderers (used for concrete counterexamples). -/
def pairFstOrd : Nat × Nat → Nat × Nat → Ordering := fun left right => compare left.1 right.1

/-- Value-level exact equality on `Nat`, standing in for `PartialEq` in concrete
examples. -/
def natPeq : Nat → Nat → Bool := fun a b => a == b

instance sortedByDecidable {T : Type} (ord : T → T → Ordering) (xs : List T) :
    Decidable (SortedBy ord xs) :=
  inferInstanceAs (Decidable (List.Pairwise _ xs))

namespace IsSWO

variable {T : Type} {ord : T → T → Ordering}

theorem eq_refl (h : IsSWO ord) (a : T) : ord a a = .eq := by
  have hs := h.swap_eq a a
  cases hc : ord a a with
  | lt => rw [hc] at hs; exact absurd hs (by decide)
  | eq => rfl
  | gt => rw [hc] at hs; exact absurd hs (by decide)

theorem eq_symm (h : IsSWO ord) {a b : T} (hab : ord a b = .eq) : ord b a = .eq := by
  have hs := h.swap_eq a b
  rw [hab] at hs
  exact hs

theorem gt_iff_lt (h : IsSWO ord) {a b : T} : ord a b = .gt ↔ ord b a = .lt := by
  have hs := h.swap_eq b a
  cases hba : ord b a with
  | lt => rw [hba] at hs; simp [hs, Ordering.swap]
  | eq => rw [hba] at hs; simp [hs, Ordering.swap]
  | gt => rw [hba] at hs; simp [hs, Ordering.swap]

theorem lt_eq_trans (h : IsSWO ord) {a b c : T} (hab : ord a b = .lt) (hbc : ord b c = .eq) :
    ord a c = .lt := by
  cases hc : ord a c with
  | lt => rfl
  | eq =>
    exact absurd (h.eq_trans hc (h.eq_symm hbc)) (by simp [hab])
  | gt =>
    have hca : ord c a = .lt := h.gt_iff_lt.mp hc
    have hcb : ord c b = .lt := h.lt_trans hca hab
    exact absurd (h.eq_symm hbc) (by simp [hcb])

theorem eq_lt_trans (h : IsSWO ord) {a b c : T} (hab : ord a b = .eq) (hbc : ord b c = .lt) :
    ord a c = .lt := by
  cases hc : ord a c with
  | lt => rfl
  | eq =>
    exact absurd (h.eq_trans (h.eq_symm hab) hc) (by simp [hbc])
  | gt =>
    have hca : ord c a = .lt := h.gt_iff_lt.mp hc
    have hcb : ord c b = .lt := h.lt_eq_trans hca hab
    have hgt : ord b c = .gt := h.gt_iff_lt.mpr hcb
    simp_all

theorem le_trans (h : IsSWO ord) {a b c : T} (hab : ord a b ≠ .gt) (hbc : ord b c ≠ .gt) :
    ord a c ≠ .gt := by
  cases h1 : ord a b with
  | gt => exact absurd h1 hab
  | lt =>
    cases h2 : ord b c with
    | gt => exact absurd h2 hbc
    | lt => simp [h.lt_trans h1 h2]
    | eq => simp [h.lt_eq_trans h1 h2]
  | eq =>
    cases h2 : ord b c with
    | gt => exact absurd h2 hbc
    | lt => simp [h.eq_lt_trans h1 h2]
    | eq => simp [h.eq_trans h1 h2]

end IsSWO

theorem bsGo_bounds {T : Type} (f : T → Ordering) (xs : List T) :
    ∀ fuel left right, left ≤ right → right ≤ xs.length →
      (∀ i, bsGo f xs fuel left right = .ok i → i < xs.length) ∧
      (∀ p, bsGo f xs fuel left right = .error p → left ≤ p ∧ p ≤ right) := by
  intro fuel
  induction fuel with
  | zero =>
    intro left right hlr _
    refine ⟨fun i hi => by simp [bsGo] at hi, fun p hp => ?_⟩
    simp [bsGo] at hp
    omega
  | succ fuel ih =>
    intro left right hlr hrl
    by_cases hc : left < right
    · have hmidlt : left + (right - left) / 2 < right := by
        have := Nat.div_lt_self (by omega : 0 < right - left) (by omega : 1 < 2)
        omega
      have hmlen : left + (right - left) / 2 < xs.length := by omega
      cases hf : f xs[left + (right - left) / 2] with
      | lt =>
        rw [bsGo]
        simp only [hc, if_true, List.getElem?_eq_getElem hmlen, hf]
        have hrec := ih (left + (right - left) / 2 + 1) right (by omega) hrl
        refine ⟨hrec.1, fun p hp => ?_⟩
        have := hrec.2 p hp
        omega
      | eq =>
        rw [bsGo]
        simp only [hc, if_true, List.getElem?_eq_getElem hmlen, hf]
        refine ⟨fun i hi => ?_, fun p hp => by simp at hp⟩
        simp at hi
        omega
      | gt =>
        rw [bsGo]
        simp only [hc, if_true, List.getElem?_eq_getElem hmlen, hf]
        have hrec := ih left (left + (right - left) / 2) (by omega) (by omega)
        refine ⟨hrec.1, fun p hp => ?_⟩
        have := hrec.2 p hp
        omega
    · rw [bsGo]
      simp only [hc, if_false]
      exact ⟨fun i hi => by simp at hi, fun p hp => by simp at hp; omega⟩

/-- Characterization of the Rust binary search on a list along which the probe
function is monotone.  A successful search returns an index whose element probes
equal; a failed search returns the watermark index separating the strictly-less
prefix from the strictly-greater suffix. -/
theorem bsGo_spec {T : Type} (f : T → Ordering) (xs : List T) (hmono : MonoOn f xs) :
    ∀ fuel left right, right - left ≤ fuel → left ≤ right → right ≤ xs.length →
      (∀ k (hk : k < xs.length), k < left → f xs[k] = .lt) →
      (∀ k (hk : k < xs.length), right ≤ k → f xs[k] = .gt) →
      (∀ i, bsGo f xs fuel left right = .ok i → ∃ hk : i < xs.length, f xs[i] = .eq) ∧
      (∀ p, bsGo f xs fuel left right = .error p → left ≤ p ∧ p ≤ right ∧
        (∀ k (hk : k < xs.length), k < p → f xs[k] = .lt) ∧
        (∀ k (hk : k < xs.length), p ≤ k → f xs[k] = .gt)) := by
  intro fuel
  induction fuel with
  | zero =>
    intro left right hfuel hlr hrl hlo hhi
    refine ⟨fun i hi => by simp [bsGo] at hi, fun p hp => ?_⟩
    simp [bsGo] at hp
    subst hp
    exact ⟨le_refl _, hlr, hlo, fun k hk hpk => hhi k hk (by omega)⟩
  | succ fuel ih =>
    intro left right hfuel hlr hrl hlo hhi
    by_cases hc : left < right
    · have hmidlt : left + (right - left) / 2 < right := by
        have := Nat.div_lt_self (by omega : 0 < right - left) (by omega : 1 < 2)
        omega
      have hmlen : left + (right - left) / 2 < xs.length := by omega
      cases hf : f xs[left + (right - left) / 2] with
      | lt =>
        rw [bsGo]
        simp only [hc, if_true, List.getElem?_eq_getElem hmlen, hf]
        have hrec := ih (left + (right - left) / 2 + 1) right (by omega) (by omega) hrl
          (fun k hk hkm => (hmono k (left + (right - left) / 2) hk hmlen (by omega)).1 hf) hhi
        refine ⟨hrec.1, fun p hp => ?_⟩
        have := hrec.2 p hp
        exact ⟨by omega, this.2.1, this.2.2.1, this.2.2.2⟩
      | eq =>
        rw [bsGo]
        simp only [hc, if_true, List.getElem?_eq_getElem hmlen, hf]
        refine ⟨fun i hi => ?_, fun p hp => by simp at hp⟩
        simp at hi
        subst hi
        exact ⟨hmlen, hf⟩
      | gt =>
        rw [bsGo]
        simp only [hc, if_true, List.getElem?_eq_getElem hmlen, hf]
        have hrec := ih left (left + (right - left) / 2)
          (by
            have := Nat.div_lt_self (by omega : 0 < right - left) (by omega : 1 < 2)
            omega)
          (by omega) (by omega) hlo
          (fun k hk hmk => (hmono (left + (right - left) / 2) k hmlen hk (by omega)).2 hf)
        refine ⟨hrec.1, fun p hp => ?_⟩
        have := hrec.2 p hp
        exact ⟨this.1, by omega, this.2.2.1, this.2.2.2⟩
    · rw [bsGo]
      simp only [hc, if_false]
      refine ⟨fun i hi => by simp at hi, fun p hp => ?_⟩
      simp at hp
      subst hp
      exact ⟨le_refl _, hlr, hlo, fun k hk hpk => hhi k hk (by omega)⟩

theorem partitionPoint_le_length {T : Type} (pred : T → Bool) (xs : List T) :
    partitionPoint pred xs ≤ xs.length := by
  have hb := bsGo_bounds (fun x => if pred x then Ordering.lt else Ordering.gt) xs
    xs.length 0 xs.length (Nat.zero_le _) (le_refl _)
  unfold partitionPoint binarySearchBy
  cases hres : bsGo (fun x => if pred x then Ordering.lt else Ordering.gt) xs
      xs.length 0 xs.length with
  | ok i => exact le_of_lt (hb.1 i hres)
  | error p => exact (hb.2 p hres).2

/-- On a list where the predicate holds exactly on a prefix of positions (which is
the case for the predicates the container uses on its sorted storage), Rust's
`partition_point` returns the exact watermark index. -/
theorem partitionPoint_spec {T : Type} (pred : T → Bool) (xs : List T)
    (hdc : DownClosed pred xs) :
    (∀ k (hk : k < xs.length), k < partitionPoint pred xs → pred xs[k] = true) ∧
    (∀ k (hk : k < xs.length), partitionPoint pred xs ≤ k → pred xs[k] = false) := by
  have hiff_lt : ∀ t : T, (if pred t then Ordering.lt else Ordering.gt) = .lt ↔ pred t = true := by
    intro t; by_cases hp : pred t <;> simp [hp]
  have hiff_gt : ∀ t : T, (if pred t then Ordering.lt else Ordering.gt) = .gt ↔ pred t = false := by
    intro t; by_cases hp : pred t <;> simp [hp]
  have hmono : MonoOn (fun x => if pred x then Ordering.lt else Ordering.gt) xs := by
    intro i j hi hj hij
    constructor
    · intro hjlt
      exact (hiff_lt _).mpr (hdc i j hi hj hij ((hiff_lt _).mp hjlt))
    · intro higt
      rcases hpj : pred xs[j] with _ | _
      · exact (hiff_gt _).mpr hpj
      · exact absurd (hdc i j hi hj hij hpj) (by simp [(hiff_gt _).mp higt])
  have hspec := bsGo_spec (fun x => if pred x then Ordering.lt else Ordering.gt) xs hmono
    xs.length 0 xs.length (by omega) (Nat.zero_le _) (le_refl _)
    (fun k hk hkz => by omega) (fun k hk hkk => by omega)
  unfold partitionPoint binarySearchBy
  cases hres : bsGo (fun x => if pred x then Ordering.lt else Ordering.gt) xs
      xs.length 0 xs.length with
  | ok i =>
    obtain ⟨hk, heq⟩ := hspec.1 i hres
    by_cases hp : pred xs[i] <;> simp [hp] at heq
  | error p =>
    obtain ⟨-, -, hlo, hhi⟩ := hspec.2 p hres
    exact ⟨fun k hk hkp => (hiff_lt _).mp (hlo k hk hkp),
      fun k hk hpk => (hiff_gt _).mp (hhi k hk hpk)⟩


theorem sortedBy_monoOn {T : Type} {ord : T → T → Ordering} {xs : List T}
    (hswo : IsSWO ord) (hs : SortedBy ord xs) (item : T) :
    MonoOn (fun x => ord x item) xs := by
  have hpw := List.pairwise_iff_getElem.mp hs
  intro i j hi hj hij
  rcases Nat.eq_or_lt_of_le hij with rfl | hlt
  · exact ⟨fun hx => hx, fun hx => hx⟩
  have hije := hpw i j hi hj hlt
  constructor
  · intro hjl
    cases hij2 : ord xs[i] xs[j] with
    | gt => exact absurd hij2 hije
    | lt => exact hswo.lt_trans hij2 hjl
    | eq => exact hswo.eq_lt_trans hij2 hjl
  · intro hig
    have hlt2 : ord item xs[i] = .lt := hswo.gt_iff_lt.mp hig
    cases hij2 : ord xs[i] xs[j] with
    | gt => exact absurd hij2 hije
    | lt => exact hswo.gt_iff_lt.mpr (hswo.lt_trans hlt2 hij2)
    | eq => exact hswo.gt_iff_lt.mpr (hswo.lt_eq_trans hlt2 hij2)

theorem sortedBy_dcLT {T : Type} {ord : T → T → Ordering} {xs : List T}
    (hswo : IsSWO ord) (hs : SortedBy ord xs) (item : T) :
    DownClosed (fun x => (ord x item).isLT) xs := by
  intro i j hi hj hij hpj
  have hpj2 : (ord xs[j] item).isLT = true := hpj
  show (ord xs[i] item).isLT = true
  have hjl : ord xs[j] item = .lt := by
    cases hc : ord xs[j] item <;> rw [hc] at hpj2 <;> simp_all [Ordering.isLT]
  have hil : ord xs[i] item = .lt := (sortedBy_monoOn hswo hs item i j hi hj hij).1 hjl
  simp [hil, Ordering.isLT]

theorem sortedBy_dcLE {T : Type} {ord : T → T → Ordering} {xs : List T}
    (hswo : IsSWO ord) (hs : SortedBy ord xs) (item : T) :
    DownClosed (fun x => (ord x item).isLE) xs := by
  intro i j hi hj hij hpj
  have hpj2 : (ord xs[j] item).isLE = true := hpj
  show (ord xs[i] item).isLE = true
  cases hc : ord xs[i] item with
  | lt => simp [Ordering.isLE]
  | eq => simp [Ordering.isLE]
  | gt =>
    have hjg : ord xs[j] item = .gt := (sortedBy_monoOn hswo hs item i j hi hj hij).2 hc
    rw [hjg] at hpj2
    simp [Ordering.isLE] at hpj2

theorem sortedBy_dcEQ {T : Type} {ord : T → T → Ordering} {xs : List T}
    (hswo : IsSWO ord) (hs : SortedBy ord xs) (item : T)
    (hge : ∀ k (hk : k < xs.length), ord xs[k] item ≠ .lt) :
    DownClosed (fun x => (ord x item).isEq) xs := by
  intro i j hi hj hij hpj
  have hpj2 : (ord xs[j] item).isEq = true := hpj
  show (ord xs[i] item).isEq = true
  have hje : ord xs[j] item = .eq := by
    cases hc : ord xs[j] item <;> rw [hc] at hpj2 <;> simp_all [Ordering.isEq]
  cases hc : ord xs[i] item with
  | eq => simp [Ordering.isEq]
  | lt => exact absurd hc (hge i hi)
  | gt =>
    have hjg : ord xs[j] item = .gt := (sortedBy_monoOn hswo hs item i j hi hj hij).2 hc
    rw [hjg] at hje
    simp at hje

/-- Boolean-to-propositional bridges for the `Ordering` tests used by the code. -/
theorem isLT_iff (o : Ordering) : o.isLT = true ↔ o = .lt := by cases o <;> simp [Ordering.isLT]

theorem isEq_iff (o : Ordering) : o.isEq = true ↔ o = .eq := by cases o <;> simp [Ordering.isEq]

theorem isLE_iff (o : Ordering) : o.isLE = true ↔ o ≠ .gt := by cases o <;> simp [Ordering.isLE]

/-- Characterization of `get_index_range_of` on a sorted container under a valid
strict weak order: it returns the maximal contiguous index range holding exactly
the orderer-equal elements, and `none` exactly when no stored element is
orderer-equal to the probe. -/
theorem gir_spec {T : Type} (s : OrdBySet T) (item : T) (hswo : IsSWO s.orderer)
    (hs : SortedBy s.orderer s.storage) :
    match s.get_index_range_of item with
    | some (a, b) => a < b ∧ b ≤ s.storage.length ∧
        (∀ k (hk : k < s.storage.length),
          (a ≤ k ∧ k < b) ↔ s.orderer s.storage[k] item = .eq)
    | none => ∀ k (hk : k < s.storage.length), s.orderer s.storage[k] item ≠ .eq := by
  obtain ⟨xs, ord⟩ := s
  simp only at hs hswo ⊢
  set start := partitionPoint (fun probe => (ord probe item).isLT) xs with hstartdef
  have hstartle := partitionPoint_le_length (fun probe => (ord probe item).isLT) xs
  have hW := partitionPoint_spec (fun probe => (ord probe item).isLT) xs
    (sortedBy_dcLT hswo hs item)
  have hW1 : ∀ k (hk : k < xs.length), k < start → ord xs[k] item = .lt :=
    fun k hk hks => (isLT_iff _).mp (hW.1 k hk hks)
  have hW2 : ∀ k (hk : k < xs.length), start ≤ k → ord xs[k] item ≠ .lt := by
    intro k hk hsk
    have hfalse : (ord xs[k] item).isLT = false := hW.2 k hk hsk
    intro hc
    rw [hc] at hfalse
    simp [Ordering.isLT] at hfalse
  set ys := xs.drop start with hysdef
  have hys_len : ys.length = xs.length - start := List.length_drop start xs
  have hys_sorted : SortedBy ord ys := List.Pairwise.sublist (List.drop_sublist start xs) hs
  have hysget : ∀ m (hm : m < ys.length), ys[m] = xs[start + m] := by
    intro m hm
    simp [hysdef]
  have hge : ∀ m (hm : m < ys.length), ord ys[m] item ≠ .lt := by
    intro m hm
    rw [hysget m hm]
    exact hW2 (start + m) (by omega) (by omega)
  set l := partitionPoint (fun probe => (ord probe item).isEq) ys with hldef
  have hlle := partitionPoint_le_length (fun probe => (ord probe item).isEq) ys
  have hE := partitionPoint_spec (fun probe => (ord probe item).isEq) ys
    (sortedBy_dcEQ hswo hys_sorted item hge)
  have hE1 : ∀ k (hk : k < xs.length), start ≤ k → k < start + l → ord xs[k] item = .eq := by
    intro k hk h1 h2
    have hm : k - start < ys.length := by omega
    have := (isEq_iff _).mp (hE.1 (k - start) hm (by omega))
    rw [hysget (k - start) hm] at this
    simpa only [show start + (k - start) = k from by omega] using this
  have hE2 : ∀ k (hk : k < xs.length), start ≤ k → start + l ≤ k → ord xs[k] item ≠ .eq := by
    intro k hk h1 h2
    have hm : k - start < ys.length := by omega
    have hfalse : (ord ys[k - start] item).isEq = false := hE.2 (k - start) hm (by omega)
    rw [hysget (k - start) hm] at hfalse
    simp only [show start + (k - start) = k from by omega] at hfalse
    intro hc
    rw [hc] at hfalse
    simp [Ordering.isEq] at hfalse
  have hgir : OrdBySet.get_index_range_of ⟨xs, ord⟩ item =
      if start < start + l then some (start, start + l) else none := rfl
  rw [hgir]
  by_cases hc : start < start + l
  · rw [if_pos hc]
    refine ⟨hc, by omega, fun k hk => ⟨fun hkr => hE1 k hk hkr.1 hkr.2, fun heq => ?_⟩⟩
    have hks : start ≤ k := by
      by_contra hlt
      exact absurd heq (by simp [hW1 k hk (by omega)])
    refine ⟨hks, ?_⟩
    by_contra hge2
    exact hE2 k hk hks (by omega) heq
  · rw [if_neg hc]
    intro k hk
    rcases Nat.lt_or_ge k start with hlt | hge2
    · simp [hW1 k hk hlt]
    · exact hE2 k hk hge2 (by omega)

theorem insertionPoint_le_length {T : Type} (s : OrdBySet T) (item : T) :
    s.insertionPoint item ≤ s.storage.length := by
  have hb := bsGo_bounds (fun x => s.orderer x item) s.storage
    s.storage.length 0 s.storage.length (Nat.zero_le _) (le_refl _)
  cases hres : binarySearchBy (fun x => s.orderer x item) s.storage with
  | ok i =>
    have hip : s.insertionPoint item = i := by
      unfold OrdBySet.insertionPoint
      rw [hres]
    rw [hip]
    exact le_of_lt (hb.1 i hres)
  | error p =>
    have hip : s.insertionPoint item = p := by
      unfold OrdBySet.insertionPoint
      rw [hres]
    rw [hip]
    exact (hb.2 p hres).2

/-- Bracketing property of the index at which `insert` places the item: every
element before it is not greater than the item, every element at or after it is
not less. -/
theorem insertionPoint_spec {T : Type} (s : OrdBySet T) (item : T)
    (hswo : IsSWO s.orderer) (hs : SortedBy s.orderer s.storage) :
    s.insertionPoint item ≤ s.storage.length ∧
    (∀ k (hk : k < s.storage.length), k < s.insertionPoint item →
      s.orderer s.storage[k] item ≠ .gt) ∧
    (∀ k (hk : k < s.storage.length), s.insertionPoint item ≤ k →
      s.orderer s.storage[k] item ≠ .lt) := by
  have hmono := sortedBy_monoOn hswo hs item
  have hspec := bsGo_spec (fun x => s.orderer x item) s.storage hmono
    s.storage.length 0 s.storage.length (by omega) (Nat.zero_le _) (le_refl _)
    (fun k hk hkz => by omega) (fun k hk hkk => by omega)
  cases hres : binarySearchBy (fun x => s.orderer x item) s.storage with
  | ok i =>
    have hip : s.insertionPoint item = i := by
      unfold OrdBySet.insertionPoint
      rw [hres]
    obtain ⟨hik, heq⟩ := hspec.1 i hres
    have heq2 : s.orderer s.storage[i] item = .eq := heq
    rw [hip]
    refine ⟨le_of_lt hik, fun k hk hki => ?_, fun k hk hik2 => ?_⟩
    · intro hgt
      have : s.orderer s.storage[i] item = .gt :=
        (hmono k i hk hik (by omega)).2 hgt
      simp [heq2] at this
    · intro hlt
      have : s.orderer s.storage[i] item = .lt :=
        (hmono i k hik hk (by omega)).1 hlt
      simp [heq2] at this
  | error p =>
    have hip : s.insertionPoint item = p := by
      unfold OrdBySet.insertionPoint
      rw [hres]
    obtain ⟨-, hple, hlo, hhi⟩ := hspec.2 p hres
    rw [hip]
    refine ⟨hple, fun k hk hki => ?_, fun k hk hik2 => ?_⟩
    · simp [hlo k hk hki]
    · simp [hhi k hk hik2]

theorem insertIdx_eq_take_cons_drop {α : Type} (a : α) :
    ∀ (p : Nat) (l : List α), p ≤ l.length →
      l.insertIdx p a = l.take p ++ a :: l.drop p := by
  intro p
  induction p with
  | zero => intro l _; simp
  | succ p ih =>
    intro l hp
    cases l with
    | nil => simp at hp
    | cons x xs =>
      simp only [List.insertIdx_succ_cons, List.take, List.drop, List.cons_append]
      rw [ih xs (by simpa using hp)]

/-- Inserting at an index with the bracketing property preserves sortedness. -/
theorem sortedBy_insertIdx {T : Type} {ord : T → T → Ordering} {xs : List T}
    (hs : SortedBy ord xs) (item : T) (p : Nat) (hp : p ≤ xs.length)
    (h1 : ∀ k (hk : k < xs.length), k < p → ord xs[k] item ≠ .gt)
    (h2 : ∀ k (hk : k < xs.length), p ≤ k → ord item xs[k] ≠ .gt) :
    SortedBy ord (xs.insertIdx p item) := by
  rw [insertIdx_eq_take_cons_drop item p xs hp]
  show List.Pairwise (fun a b => ord a b ≠ .gt) (xs.take p ++ item :: xs.drop p)
  have hsplit : xs.take p ++ xs.drop p = xs := List.take_append_drop p xs
  have hpw : List.Pairwise (fun a b => ord a b ≠ .gt) (xs.take p ++ xs.drop p) := by
    rw [hsplit]; exact hs
  rw [List.pairwise_append] at hpw
  obtain ⟨hpw1, hpw2, hcross⟩ := hpw
  rw [List.pairwise_append]
  refine ⟨hpw1, ?_, ?_⟩
  · rw [List.pairwise_cons]
    refine ⟨fun b hb => ?_, hpw2⟩
    obtain ⟨m, hm, hbm⟩ := List.mem_iff_getElem.mp hb
    have hmx : p + m < xs.length := by
      have := List.length_drop p xs
      omega
    have : (xs.drop p)[m] = xs[p + m] := by simp
    rw [← hbm, this]
    exact h2 (p + m) hmx (by omega)
  · intro a ha b hb
    rcases List.mem_cons.mp hb with rfl | hbd
    · obtain ⟨m, hm, ham⟩ := List.mem_iff_getElem.mp ha
      have hmx : m < xs.length := by
        have h1l := List.length_take p xs
        omega
      have : (xs.take p)[m] = xs[m] := by simp
      rw [← ham, this]
      have hmp : m < p := by
        have h1l := List.length_take p xs
        omega
      exact h1 m hmx hmp
    · exact hcross a ha b hbd

/-- Inserting into a sorted container (valid strict weak order) keeps the storage
sorted, and the orderer is unchanged. -/
theorem insert_sorted {T : Type} (s : OrdBySet T) (item : T) (hswo : IsSWO s.orderer)
    (hs : SortedBy s.orderer s.storage) :
    SortedBy s.orderer (s.insert item).storage := by
  obtain ⟨hple, hlo, hhi⟩ := insertionPoint_spec s item hswo hs
  show SortedBy s.orderer (s.storage.insertIdx (s.insertionPoint item) item)
  refine sortedBy_insertIdx hs item (s.insertionPoint item) hple hlo ?_
  intro k hk hik
  have := hhi k hk hik
  intro hgt
  exact this (hswo.gt_iff_lt.mp hgt)

theorem isSWO_natOrd : IsSWO natOrd := by
  constructor
  · intro a b
    rcases Nat.lt_trichotomy a b with hlt | heq | hgt
    · rw [show natOrd b a = .gt from Nat.compare_eq_gt.mpr hlt,
        show natOrd a b = .lt from Nat.compare_eq_lt.mpr hlt]
      rfl
    · subst heq
      rw [show natOrd a a = .eq from Nat.compare_eq_eq.mpr rfl]
      rfl
    · rw [show natOrd b a = .lt from Nat.compare_eq_lt.mpr hgt,
        show natOrd a b = .gt from Nat.compare_eq_gt.mpr hgt]
      rfl
  · intro a b c hab hbc
    exact Nat.compare_eq_lt.mpr
      (lt_trans (Nat.compare_eq_lt.mp hab) (Nat.compare_eq_lt.mp hbc))
  · intro a b c hab hbc
    exact Nat.compare_eq_eq.mpr
      ((Nat.compare_eq_eq.mp hab).trans (Nat.compare_eq_eq.mp hbc))

theorem insertAll_orderer {T : Type} (s : OrdBySet T) (items : List T) :
    (s.insertAll items).orderer = s.orderer := by
  induction items generalizing s with
  | nil => rfl
  | cons v rest ih => exact ih (s.insert v)

theorem insertAll_sorted {T : Type} (s : OrdBySet T) (items : List T)
    (hswo : IsSWO s.orderer) (hs : SortedBy s.orderer s.storage) :
    SortedBy s.orderer (s.insertAll items).storage := by
  induction items generalizing s with
  | nil => exact hs
  | cons v rest ih => exact ih (s.insert v) hswo (insert_sorted s v hswo hs)

/-- C1: for every sequence of insertions starting from an empty container with a
valid strict-weak-order orderer, after each `insert` (here: after the first `n`
inserts of any insertion sequence, for every `n`) the storage is sorted
non-decreasingly per the orderer — for any indices `i < j`,
`orderer.order_of(storage[i], storage[j])` is not `Greater`. -/
theorem claim_C1_insert_invariant {T : Type} (ord : T → T → Ordering)
    (hswo : IsSWO ord) (items : List T) (n : Nat) :
    SortedBy ord ((OrdBySet.new_with_order ord).insertAll (items.take n)).storage :=
  insertAll_sorted (OrdBySet.new_with_order ord) (items.take n) hswo List.Pairwise.nil

theorem claim_C1_witness :
    SortedBy natOrd ((OrdBySet.new_with_order natOrd).insertAll ([2,1,3,1,3,4].take 4)).storage :=
  claim_C1_insert_invariant natOrd isSWO_natOrd [2,1,3,1,3,4] 4

/-- C2 (counterexample): `insert` does not in general place the item at the first
index whose element is not less than the item.  With an orderer comparing only
the first component, inserting `(3,9)` into `[(3,0),(3,1),(3,2)]` places it at
index 1 (the index probed by binary search), not at the spec-claimed first
not-less index 0. -/
theorem claim_C2_counterexample :
    (OrdBySet.insert ⟨[(3,0),(3,1),(3,2)], pairFstOrd⟩ (3,9)).storage ≠
      List.insertIdx (specInsertionIndex pairFstOrd [(3,0),(3,1),(3,2)] (3,9)) (3,9)
        [(3,0),(3,1),(3,2)] := by
  decide

/-- C2 (amended): `insert` places the item at an index at which it could be
placed without violating sortedness — every earlier element is not greater than
the item and every element from that index on is not less — but when
orderer-equal elements are present that index is the one probed by binary search,
not necessarily the first such index; sortedness is preserved. -/
theorem claim_C2_insert_position {T : Type} (s : OrdBySet T) (item : T)
    (hswo : IsSWO s.orderer) (hs : SortedBy s.orderer s.storage) :
    ∃ p, (s.insert item).storage = s.storage.insertIdx p item ∧ p ≤ s.storage.length ∧
      (∀ k (hk : k < s.storage.length), k < p → s.orderer s.storage[k] item ≠ .gt) ∧
      (∀ k (hk : k < s.storage.length), p ≤ k → s.orderer s.storage[k] item ≠ .lt) ∧
      SortedBy s.orderer (s.insert item).storage := by
  obtain ⟨h1, h2, h3⟩ := insertionPoint_spec s item hswo hs
  exact ⟨s.insertionPoint item, rfl, h1, h2, h3, insert_sorted s item hswo hs⟩

theorem claim_C2_witness :
    ∃ p, (OrdBySet.insert ⟨[1,2,4], natOrd⟩ 3).storage = List.insertIdx p 3 [1,2,4] ∧
      p ≤ ([1,2,4] : List Nat).length ∧
      (∀ k (hk : k < ([1,2,4] : List Nat).length), k < p →
        natOrd (([1,2,4] : List Nat)[k]) 3 ≠ .gt) ∧
      (∀ k (hk : k < ([1,2,4] : List Nat).length), p ≤ k →
        natOrd (([1,2,4] : List Nat)[k]) 3 ≠ .lt) ∧
      SortedBy natOrd (OrdBySet.insert ⟨[1,2,4], natOrd⟩ 3).storage :=
  claim_C2_insert_position ⟨[1,2,4], natOrd⟩ 3 isSWO_natOrd (by decide)

/-- C3: on a sorted container under a valid strict-weak-order orderer,
`get_index_range_of` returns the maximal contiguous index range `[start, stop)`
of elements the orderer considers equal to the probe — an index is in the range
exactly when its element compares `Equal` to the probe — and returns `none`
exactly when that range is empty; `get` exposes the corresponding storage window
and `count` its length. -/
theorem claim_C3_equal_range {T : Type} (s : OrdBySet T) (item : T)
    (hswo : IsSWO s.orderer) (hs : SortedBy s.orderer s.storage) :
    match s.get_index_range_of item with
    | some (a, b) => a < b ∧ b ≤ s.storage.length ∧
        (∀ k (hk : k < s.storage.length),
          (a ≤ k ∧ k < b) ↔ s.orderer s.storage[k] item = .eq) ∧
        s.get item = some ((s.storage.drop a).take (b - a)) ∧ s.count item = b - a
    | none => (∀ k (hk : k < s.storage.length), s.orderer s.storage[k] item ≠ .eq) ∧
        s.get item = none ∧ s.count item = 0 := by
  have hg := gir_spec s item hswo hs
  cases hres : s.get_index_range_of item with
  | some r =>
    obtain ⟨a, b⟩ := r
    simp only [hres] at hg
    exact ⟨hg.1, hg.2.1, hg.2.2, by simp [OrdBySet.get, hres], by simp [OrdBySet.count, hres]⟩
  | none =>
    simp only [hres] at hg
    exact ⟨hg, by simp [OrdBySet.get, hres], by simp [OrdBySet.count, hres]⟩

theorem claim_C3_witness :
    OrdBySet.count ⟨[1,2,3,3,3,4], natOrd⟩ 3 = 5 - 2 := by
  have h := claim_C3_equal_range ⟨[1,2,3,3,3,4], natOrd⟩ 3 isSWO_natOrd (by decide)
  simp only [show OrdBySet.get_index_range_of ⟨[1,2,3,3,3,4], natOrd⟩ 3 = some (2, 5) from
    by decide] at h
  exact h.2.2.2.2

/-- Characterization of `range_to_index_range` on a sorted container: the
returned range holds exactly the elements between the bounds inclusively, `none`
is returned when the bounds are not strictly ordered or the window is empty. -/
theorem rtir_spec {T : Type} (s : OrdBySet T) (low high : T) (hswo : IsSWO s.orderer)
    (hs : SortedBy s.orderer s.storage) :
    match s.range_to_index_range low high with
    | some (a, b) => s.orderer low high = .lt ∧ a < b ∧ b ≤ s.storage.length ∧
        (∀ k (hk : k < s.storage.length), (a ≤ k ∧ k < b) ↔
          (s.orderer s.storage[k] low ≠ .lt ∧ s.orderer s.storage[k] high ≠ .gt))
    | none => s.orderer low high ≠ .lt ∨
        (∀ k (hk : k < s.storage.length),
          s.orderer s.storage[k] low ≠ .lt → s.orderer s.storage[k] high = .gt) := by
  obtain ⟨xs, ord⟩ := s
  simp only at hs hswo ⊢
  by_cases hg : (ord low high).isLT
  · have hglt : ord low high = .lt := (isLT_iff _).mp hg
    set start := partitionPoint (fun probe => (ord probe low).isLT) xs with hstartdef
    have hstartle := partitionPoint_le_length (fun probe => (ord probe low).isLT) xs
    have hW := partitionPoint_spec (fun probe => (ord probe low).isLT) xs
      (sortedBy_dcLT hswo hs low)
    have hW1 : ∀ k (hk : k < xs.length), k < start → ord xs[k] low = .lt :=
      fun k hk hks => (isLT_iff _).mp (hW.1 k hk hks)
    have hW2 : ∀ k (hk : k < xs.length), start ≤ k → ord xs[k] low ≠ .lt := by
      intro k hk hsk
      have hfalse : (ord xs[k] low).isLT = false := hW.2 k hk hsk
      intro hc
      rw [hc] at hfalse
      simp [Ordering.isLT] at hfalse
    set ys := xs.drop start with hysdef
    have hys_len : ys.length = xs.length - start := List.length_drop start xs
    have hys_sorted : SortedBy ord ys := List.Pairwise.sublist (List.drop_sublist start xs) hs
    have hysget : ∀ m (hm : m < ys.length), ys[m] = xs[start + m] := by
      intro m hm
      simp [hysdef]
    set l := partitionPoint (fun probe => (ord probe high).isLE) ys with hldef
    have hlle := partitionPoint_le_length (fun probe => (ord probe high).isLE) ys
    have hE := partitionPoint_spec (fun probe => (ord probe high).isLE) ys
      (sortedBy_dcLE hswo hys_sorted high)
    have hE1 : ∀ k (hk : k < xs.length), start ≤ k → k < start + l →
        ord xs[k] high ≠ .gt := by
      intro k hk h1 h2
      have hm : k - start < ys.length := by omega
      have hle := (isLE_iff _).mp (hE.1 (k - start) hm (by omega))
      rw [hysget (k - start) hm] at hle
      simpa only [show start + (k - start) = k from by omega] using hle
    have hE2 : ∀ k (hk : k < xs.length), start ≤ k → start + l ≤ k →
        ord xs[k] high = .gt := by
      intro k hk h1 h2
      have hm : k - start < ys.length := by omega
      have hfalse : (ord ys[k - start] high).isLE = false := hE.2 (k - start) hm (by omega)
      rw [hysget (k - start) hm] at hfalse
      simp only [show start + (k - start) = k from by omega] at hfalse
      cases hc : ord xs[k] high <;> rw [hc] at hfalse <;> simp_all [Ordering.isLE]
    have hrt : OrdBySet.range_to_index_range ⟨xs, ord⟩ low high =
        if start < start + l then some (start, start + l) else none := by
      unfold OrdBySet.range_to_index_range
      rw [hg]
      rfl
    rw [hrt]
    by_cases hc : start < start + l
    · rw [if_pos hc]
      refine ⟨hglt, hc, by omega, fun k hk => ⟨fun hkr => ⟨hW2 k hk hkr.1, hE1 k hk hkr.1 hkr.2⟩,
        fun hcond => ?_⟩⟩
      have hks : start ≤ k := by
        by_contra hlt
        exact hcond.1 (hW1 k hk (by omega))
      refine ⟨hks, ?_⟩
      by_contra hge2
      exact hcond.2 (hE2 k hk hks (by omega))
    · rw [if_neg hc]
      refine Or.inr (fun k hk hnl => ?_)
      have hks : start ≤ k := by
        by_contra hlt
        exact hnl (hW1 k hk (by omega))
      exact hE2 k hk hks (by omega)
  · have hrt : OrdBySet.range_to_index_range ⟨xs, ord⟩ low high = none := by
      unfold OrdBySet.range_to_index_range
      rw [Bool.eq_false_iff.mpr hg]
      rfl
    rw [hrt]
    refine Or.inl (fun hc => ?_)
    rw [hc] at hg
    simp [Ordering.isLT] at hg

/-- C4: `range(low, high)` returns the maximal contiguous range of elements `e`
with `low <= e <= high` inclusively at both ends (evaluated via the orderer),
returns `None` whenever `low` is not strictly less than `high` under the orderer
(including `Equal` bounds) and when the computed window is empty; in particular
for storage `[1,2,3,3,4]` under natural order, `range(2,4)` is `[2,3,3,4]` and
`range(4,2)` is `None`. -/
theorem claim_C4_bounded_range :
    (∀ (T : Type) (s : OrdBySet T) (low high : T), IsSWO s.orderer →
      SortedBy s.orderer s.storage →
      (s.range low high =
        (s.range_to_index_range low high).map
          (fun r => (s.storage.drop r.1).take (r.2 - r.1))) ∧
      match s.range_to_index_range low high with
      | some (a, b) => s.orderer low high = .lt ∧ a < b ∧ b ≤ s.storage.length ∧
          (∀ k (hk : k < s.storage.length), (a ≤ k ∧ k < b) ↔
            (s.orderer s.storage[k] low ≠ .lt ∧ s.orderer s.storage[k] high ≠ .gt))
      | none => s.orderer low high ≠ .lt ∨
          (∀ k (hk : k < s.storage.length),
            s.orderer s.storage[k] low ≠ .lt → s.orderer s.storage[k] high = .gt)) ∧
    OrdBySet.range ⟨[1,2,3,3,4], natOrd⟩ 2 4 = some [2,3,3,4] ∧
    OrdBySet.range ⟨[1,2,3,3,4], natOrd⟩ 4 2 = none := by
  refine ⟨fun T s low high hswo hs => ⟨rfl, rtir_spec s low high hswo hs⟩, by decide, by decide⟩

theorem claim_C4_witness :
    OrdBySet.range ⟨[10,20,30], natOrd⟩ 15 25 =
      (OrdBySet.range_to_index_range ⟨[10,20,30], natOrd⟩ 15 25).map
        (fun r => (([10,20,30] : List Nat).drop r.1).take (r.2 - r.1)) :=
  (claim_C4_bounded_range.1 Nat ⟨[10,20,30], natOrd⟩ 15 25 isSWO_natOrd (by decide)).1

theorem contains_iff_exists_eq {T : Type} (s : OrdBySet T) (item : T)
    (hswo : IsSWO s.orderer) (hs : SortedBy s.orderer s.storage) :
    s.contains item = true ↔
      ∃ k, ∃ hk : k < s.storage.length, s.orderer s.storage[k] item = .eq := by
  have hmono := sortedBy_monoOn hswo hs item
  have hspec := bsGo_spec (fun x => s.orderer x item) s.storage hmono
    s.storage.length 0 s.storage.length (by omega) (Nat.zero_le _) (le_refl _)
    (fun k hk hkz => by omega) (fun k hk hkk => by omega)
  cases hres : binarySearchBy (fun x => s.orderer x item) s.storage with
  | ok i =>
    have hcontains : s.contains item = true := by
      unfold OrdBySet.contains
      rw [hres]
    obtain ⟨hik, heq⟩ := hspec.1 i hres
    exact ⟨fun _ => ⟨i, hik, heq⟩, fun _ => hcontains⟩
  | error p =>
    have hcontains : s.contains item = false := by
      unfold OrdBySet.contains
      rw [hres]
    obtain ⟨-, -, hlo, hhi⟩ := hspec.2 p hres
    rw [hcontains]
    simp only [Bool.false_eq_true, false_iff]
    rintro ⟨k, hk, heq⟩
    rcases Nat.lt_or_ge k p with hkp | hpk
    · have : s.orderer s.storage[k] item = .lt := hlo k hk hkp
      simp [heq] at this
    · have : s.orderer s.storage[k] item = .gt := hhi k hk hpk
      simp [heq] at this

/-- C10: on a sorted container under a valid strict-weak-order orderer, the query
operations agree: `contains` is true exactly when `count` is positive, exactly
when `get` returns `Some`, and `get` never returns `Some` of an empty slice —
even though `contains` uses a direct binary search while `count` and `get` use
the partition-point equal-range computation. -/
theorem claim_C10_query_agreement {T : Type} (s : OrdBySet T) (item : T)
    (hswo : IsSWO s.orderer) (hs : SortedBy s.orderer s.storage) :
    ((s.contains item = true) ↔ 0 < s.count item) ∧
    ((s.contains item = true) ↔ (s.get item).isSome = true) ∧
    (∀ l, s.get item = some l → l ≠ []) := by
  have hg := gir_spec s item hswo hs
  have hcont := contains_iff_exists_eq s item hswo hs
  cases hres : s.get_index_range_of item with
  | some r =>
    obtain ⟨a, b⟩ := r
    simp only [hres] at hg
    obtain ⟨hab, hble, hiff⟩ := hg
    have halen : a < s.storage.length := by omega
    have hceq : s.orderer s.storage[a] item = .eq := (hiff a halen).mp ⟨le_refl a, hab⟩
    have hc : s.contains item = true := hcont.mpr ⟨a, halen, hceq⟩
    refine ⟨⟨fun _ => by simp [OrdBySet.count, hres]; omega, fun _ => hc⟩,
      ⟨fun _ => by simp [OrdBySet.get, hres], fun _ => hc⟩, fun l hl => ?_⟩
    have hleq : l = (s.storage.drop a).take (b - a) := by
      simp [OrdBySet.get, hres] at hl
      exact hl.symm
    have hlen : l.length = b - a := by
      rw [hleq]
      simp [List.length_take, List.length_drop]
      omega
    intro hnil
    rw [hnil] at hlen
    simp at hlen
    omega
  | none =>
    simp only [hres] at hg
    have hc : s.contains item = false := by
      rcases hb : s.contains item with _ | _
      · rfl
      · obtain ⟨k, hk, heq⟩ := hcont.mp hb
        exact absurd heq (hg k hk)
    rw [hc]
    refine ⟨by simp [OrdBySet.count, hres], by simp [OrdBySet.get, hres],
      fun l hl => by simp [OrdBySet.get, hres] at hl⟩

theorem claim_C10_witness :
    (OrdBySet.contains ⟨[1,2,3,3,4], natOrd⟩ 3 = true) ↔
      0 < OrdBySet.count ⟨[1,2,3,3,4], natOrd⟩ 3 :=
  (claim_C10_query_agreement ⟨[1,2,3,3,4], natOrd⟩ 3 isSWO_natOrd (by decide)).1

/-- C9: on a sorted container under a valid strict-weak-order orderer, when no
stored element is orderer-equal to the probe, absence is communicated by empty
results rather than a panic: `get`, `get_first`, `remove_first` and
`get_specific` return `None` (leaving the container untouched where they could
mutate), `drain` returns the empty collection, and `contains` and `remove_all`
return `false`. -/
theorem claim_C9_no_match {T : Type} (s : OrdBySet T) (item : T)
    (hswo : IsSWO s.orderer) (hs : SortedBy s.orderer s.storage)
    (hnone : ∀ k (hk : k < s.storage.length), s.orderer s.storage[k] item ≠ .eq) :
    s.get item = none ∧ s.get_first item = none ∧ s.remove_first item = (none, s) ∧
    (∀ peq, OrdBySet.get_specific peq s item = none) ∧
    s.drain item = ([], s) ∧ s.contains item = false ∧
    s.remove_all item = (false, s) ∧ s.count item = 0 := by
  have hgir : s.get_index_range_of item = none := by
    cases hres : s.get_index_range_of item with
    | none => rfl
    | some r =>
      obtain ⟨a, b⟩ := r
      have hg := gir_spec s item hswo hs
      simp only [hres] at hg
      have halen : a < s.storage.length := by omega
      exact absurd ((hg.2.2 a halen).mp ⟨le_refl a, hg.1⟩) (hnone a halen)
  have hgf : s.get_first item = none := by
    cases hres : binarySearchBy (fun x => s.orderer x item) s.storage with
    | ok i =>
      have hspec := bsGo_spec (fun x => s.orderer x item) s.storage
        (sortedBy_monoOn hswo hs item)
        s.storage.length 0 s.storage.length (by omega) (Nat.zero_le _) (le_refl _)
        (fun k hk hkz => by omega) (fun k hk hkk => by omega)
      obtain ⟨hik, heq⟩ := hspec.1 i hres
      exact absurd heq (hnone i hik)
    | error p =>
      unfold OrdBySet.get_first
      rw [hres]
  have hcont : s.contains item = false := by
    rcases hb : s.contains item with _ | _
    · rfl
    · obtain ⟨k, hk, heq⟩ := (contains_iff_exists_eq s item hswo hs).mp hb
      exact absurd heq (hnone k hk)
  refine ⟨by simp [OrdBySet.get, hgir], hgf, by simp [OrdBySet.remove_first, hgir],
    fun peq => by simp [OrdBySet.get_specific, hgir], by simp [OrdBySet.drain, hgir],
    hcont, by simp [OrdBySet.remove_all, hgir], by simp [OrdBySet.count, hgir]⟩

theorem claim_C9_witness :
    OrdBySet.get ⟨[1,2,4], natOrd⟩ 3 = none ∧
    OrdBySet.drain ⟨[1,2,4], natOrd⟩ 3 = ([], ⟨[1,2,4], natOrd⟩) := by
  have h := claim_C9_no_match ⟨[1,2,4], natOrd⟩ 3 isSWO_natOrd (by decide)
    (by decide)
  exact ⟨h.1, h.2.2.2.2.1⟩

theorem sortSlice_sorted {T : Type} {ord : T → T → Ordering} (hswo : IsSWO ord)
    (xs : List T) : SortedBy ord (sortSlice ord xs) := by
  have htrans : ∀ a b c : T, (ord a b).isLE = true → (ord b c).isLE = true →
      (ord a c).isLE = true := by
    intro a b c hab hbc
    exact (isLE_iff _).mpr (hswo.le_trans ((isLE_iff _).mp hab) ((isLE_iff _).mp hbc))
  have htotal : ∀ a b : T, ((ord a b).isLE || (ord b a).isLE) = true := by
    intro a b
    cases hc : ord a b with
    | lt => simp [Ordering.isLE]
    | eq => simp [Ordering.isLE]
    | gt =>
      have : ord b a = .lt := hswo.gt_iff_lt.mp hc
      simp [this, Ordering.isLE]
  have hsorted := List.sorted_mergeSort htrans htotal xs
  exact hsorted.imp (fun hab => (isLE_iff _).mp hab)

theorem sortSlice_perm {T : Type} (ord : T → T → Ordering) (xs : List T) :
    (sortSlice ord xs).Perm xs :=
  List.mergeSort_perm xs _

/-- C5 (counterexample): contrary to the claim, `get_first_mut` and
`get_specific_mut` return plain mutable references, not guards; mutating through
them performs no restoration when the borrow ends, and can leave the storage
unsorted.  Concretely, rewriting the element found for probe `2` in `[1,2,3]` to
`99` leaves `[1,99,3]`. -/
theorem claim_C5_counterexample :
    ¬ SortedBy natOrd
        ((OrdBySet.get_first_mut_modify ⟨[1,2,3], natOrd⟩ 2 (fun _ => 99)).storage) ∧
    ¬ SortedBy natOrd
        ((OrdBySet.get_specific_mut_modify natPeq ⟨[1,2,3], natOrd⟩ 2
          (fun _ => 99)).storage) := by
  constructor <;> decide

/-- C5 (amended): the queries returning a mutable view through a guard object are
`get_mut` and `range_mut`; for those, after the mutable borrow ends the guard's
release re-establishes the sortedness invariant for any caller mutation of the
viewed elements.  (`get_first_mut` and `get_specific_mut` instead return plain
mutable references with no guard and no re-sort on release.) -/
theorem claim_C5_guard_restores {T : Type} (s : OrdBySet T) (item low high : T)
    (f g : List T → List T) (hswo : IsSWO s.orderer)
    (hs : SortedBy s.orderer s.storage) :
    SortedBy s.orderer (OrdBySet.get_mut_modify s item f).storage ∧
    SortedBy s.orderer (OrdBySet.range_mut_modify s low high g).storage := by
  constructor
  · unfold OrdBySet.get_mut_modify
    cases hres : s.get_index_range_of item with
    | some r => exact sortSlice_sorted hswo _
    | none => exact hs
  · unfold OrdBySet.range_mut_modify
    cases hres : s.range_to_index_range low high with
    | some r => exact sortSlice_sorted hswo _
    | none => exact hs

theorem claim_C5_witness :
    SortedBy natOrd
      ((OrdBySet.get_mut_modify ⟨[1,2,3], natOrd⟩ 2 (fun w => w.map (fun _ => 99))).storage) :=
  (claim_C5_guard_restores ⟨[1,2,3], natOrd⟩ 2 1 3 (fun w => w.map (fun _ => 99)) id
    isSWO_natOrd (by decide)).1

/-- C6: releasing either guard re-sorts the entire storage via the orderer's
`sort_slice`, unconditionally — whatever mutation was applied to the guarded
window or element — so that after release the storage is sorted per the orderer,
and a record whose order key was changed is findable at its new equal-range. -/
theorem claim_C6_guard_resort {T : Type} (s : OrdBySet T) (hswo : IsSWO s.orderer) :
    (∀ a b f, (OrdBySet.slice_guard_release s a b f).storage =
        sortSlice s.orderer
          (s.storage.take a ++ f ((s.storage.drop a).take (b - a)) ++ s.storage.drop b) ∧
      SortedBy s.orderer (OrdBySet.slice_guard_release s a b f).storage) ∧
    (∀ i f, SortedBy s.orderer (OrdBySet.mut_ref_guard_release s i f).storage) ∧
    (∀ i (hi : i < s.storage.length) f,
      ∃ a b, (OrdBySet.mut_ref_guard_release s i f).get_index_range_of
          (f s.storage[i]) = some (a, b) ∧
        ∃ k, ∃ hk : k < (OrdBySet.mut_ref_guard_release s i f).storage.length,
          a ≤ k ∧ k < b ∧
          (OrdBySet.mut_ref_guard_release s i f).storage[k] = f s.storage[i]) := by
  refine ⟨fun a b f => ⟨rfl, sortSlice_sorted hswo _⟩, fun i f => ?_, fun i hi f => ?_⟩
  · unfold OrdBySet.mut_ref_guard_release
    cases s.storage[i]? <;> exact sortSlice_sorted hswo _
  · have hrel : OrdBySet.mut_ref_guard_release s i f =
        { s with storage := sortSlice s.orderer (s.storage.set i (f s.storage[i])) } := by
      unfold OrdBySet.mut_ref_guard_release
      rw [List.getElem?_eq_getElem hi]
    simp only [hrel]
    set v := f s.storage[i] with hvdef
    set zs := s.storage.set i v with hzsdef
    have hmem : v ∈ zs := by
      have hizs : i < zs.length := by
        simp only [hzsdef, List.length_set]
        exact hi
      have hget : zs[i] = v := by
        simp only [hzsdef]
        simp [List.getElem_set]
      rw [← hget]
      exact List.getElem_mem hizs
    have hmem2 : v ∈ sortSlice s.orderer zs := ((sortSlice_perm s.orderer zs).mem_iff).mpr hmem
    obtain ⟨k, hk, hkv⟩ := List.mem_iff_getElem.mp hmem2
    set s2 : OrdBySet T := { s with storage := sortSlice s.orderer zs } with hs2def
    have hs2sorted : SortedBy s2.orderer s2.storage := sortSlice_sorted hswo zs
    have hg := gir_spec s2 v hswo hs2sorted
    have hkeq : s2.orderer s2.storage[k] v = .eq := by
      show s.orderer (sortSlice s.orderer zs)[k] v = .eq
      rw [hkv]
      exact hswo.eq_refl v
    cases hres : s2.get_index_range_of v with
    | none =>
      simp only [hres] at hg
      exact absurd hkeq (hg k hk)
    | some r =>
      obtain ⟨a, b⟩ := r
      simp only [hres] at hg
      obtain ⟨hak, hkb⟩ := (hg.2.2 k hk).mpr hkeq
      exact ⟨a, b, rfl, k, hk, hak, hkb, hkv⟩

theorem claim_C6_witness :
    SortedBy natOrd
      ((OrdBySet.mut_ref_guard_release ⟨[1,2,3], natOrd⟩ 1 (fun _ => 99)).storage) :=
  (claim_C6_guard_resort ⟨[1,2,3], natOrd⟩ isSWO_natOrd).2.1 1 (fun _ => 99)

/-- C7: on a sorted container whose valid strict-weak-order orderer deems
exactly-equal values orderer-equal, each disambiguated accessor first computes the
equal-range via the orderer and then linearly scans it for an element exactly
equal to the probe (`peq`, standing for `T`'s `PartialEq`), acting on the first
match in memory order — which is the globally first exact match — and returning
`None`/`false` (and leaving the container unchanged) when no exactly-equal
element exists. -/
theorem claim_C7_specific_access {T : Type} (peq : T → T → Bool) (s : OrdBySet T)
    (val : T) (hswo : IsSWO s.orderer) (hs : SortedBy s.orderer s.storage)
    (hsup : ∀ a b, peq a b = true → s.orderer a b = .eq) :
    match s.storage.findIdx? (fun x => peq x val) with
    | some k => ∃ hk : k < s.storage.length,
        peq s.storage[k] val = true ∧
        (∀ j (hj : j < s.storage.length), j < k → peq s.storage[j] val = false) ∧
        OrdBySet.get_specific peq s val = some s.storage[k] ∧
        OrdBySet.remove_specific peq s val =
          (some s.storage[k], ⟨s.storage.eraseIdx k, s.orderer⟩) ∧
        (∀ f, OrdBySet.get_specific_mut_modify peq s val f =
          ⟨s.storage.set k (f s.storage[k]), s.orderer⟩) ∧
        OrdBySet.contains_specific peq s val = true
    | none =>
        OrdBySet.get_specific peq s val = none ∧
        OrdBySet.remove_specific peq s val = (none, s) ∧
        (∀ f, OrdBySet.get_specific_mut_modify peq s val f = s) ∧
        OrdBySet.contains_specific peq s val = false := by
  obtain ⟨xs, ord⟩ := s
  simp only at hs hswo hsup ⊢
  have hg := gir_spec ⟨xs, ord⟩ val hswo hs
  cases hgir : OrdBySet.get_index_range_of ⟨xs, ord⟩ val with
  | none =>
    simp only [hgir] at hg
    have hnope : xs.findIdx? (fun x => peq x val) = none := by
      rw [List.findIdx?_eq_none_iff]
      intro x hx
      obtain ⟨n, hn, hxn⟩ := List.mem_iff_getElem.mp hx
      subst hxn
      rcases hb : peq xs[n] val with _ | _
      · rfl
      · exact absurd (hsup _ _ hb) (hg n hn)
    rw [hnope]
    exact ⟨by simp [OrdBySet.get_specific, hgir], by simp [OrdBySet.remove_specific, hgir],
      fun f => by simp [OrdBySet.get_specific_mut_modify, hgir],
      by simp [OrdBySet.contains_specific, hgir]⟩
  | some r =>
    obtain ⟨a, b⟩ := r
    simp only [hgir] at hg
    obtain ⟨hab, hble, hiff⟩ := hg
    have hslen : ((xs.drop a).take (b - a)).length = b - a := by
      simp [List.length_take, List.length_drop]
      omega
    have hsget : ∀ m (hm : m < ((xs.drop a).take (b - a)).length),
        ((xs.drop a).take (b - a))[m] = xs[a + m] := by
      intro m hm
      simp
    cases hfs : ((xs.drop a).take (b - a)).findIdx? (fun x => peq x val) with
    | none =>
      have hnoeq : ∀ n (hn : n < xs.length), peq xs[n] val = false := by
        intro n hn
        rcases hb : peq xs[n] val with _ | _
        · rfl
        · exfalso
          have heqn := hsup _ _ hb
          obtain ⟨han, hnb⟩ := (hiff n hn).mpr heqn
          have hm : n - a < ((xs.drop a).take (b - a)).length := by omega
          have hfind := List.findIdx?_eq_none_iff.mp hfs _ (List.getElem_mem hm)
          rw [hsget (n - a) hm] at hfind
          simp only [show a + (n - a) = n from by omega] at hfind
          rw [hb] at hfind
          simp at hfind
      have hnope : xs.findIdx? (fun x => peq x val) = none := by
        rw [List.findIdx?_eq_none_iff]
        intro x hx
        obtain ⟨n, hn, hxn⟩ := List.mem_iff_getElem.mp hx
        subst hxn
        exact hnoeq n hn
      rw [hnope]
      exact ⟨by simp [OrdBySet.get_specific, hgir, hfs],
        by simp [OrdBySet.remove_specific, hgir, hfs],
        fun f => by simp [OrdBySet.get_specific_mut_modify, hgir, hfs],
        by simp [OrdBySet.contains_specific, hgir, hfs]⟩
    | some i =>
      obtain ⟨hilen, hfidx⟩ := List.findIdx?_eq_some_iff_findIdx_eq.mp hfs
      obtain ⟨hpi, hprev⟩ := (List.findIdx_eq hilen).mp hfidx
      have hia : i + a < xs.length := by omega
      have hpia : peq xs[i + a] val = true := by
        have hpi2 := hpi
        rw [hsget i hilen] at hpi2
        simpa only [show a + i = i + a from by omega] using hpi2
      have hprevx : ∀ j (hj : j < xs.length), j < i + a → peq xs[j] val = false := by
        intro j hj hjk
        rcases Nat.lt_or_ge j a with hja | haj
        · rcases hb : peq xs[j] val with _ | _
          · rfl
          · exfalso
            have heqj := hsup _ _ hb
            obtain ⟨haj2, -⟩ := (hiff j hj).mpr heqj
            omega
        · have hm : j - a < ((xs.drop a).take (b - a)).length := by omega
          have hpj := hprev (j - a) (by omega)
          rw [hsget (j - a) hm] at hpj
          simpa only [show a + (j - a) = j from by omega] using hpj
      have hglobal : xs.findIdx? (fun x => peq x val) = some (i + a) := by
        rw [List.findIdx?_eq_some_iff_findIdx_eq]
        exact ⟨hia, (List.findIdx_eq hia).mpr
          ⟨hpia, fun j hji => hprevx j (by omega) hji⟩⟩
      rw [hglobal]
      refine ⟨hia, hpia, hprevx, ?_, ?_, fun f => ?_, ?_⟩
      · simp [OrdBySet.get_specific, hgir, hfs, List.getElem?_eq_getElem hia]
      · simp [OrdBySet.remove_specific, hgir, hfs, List.getElem?_eq_getElem hia]
      · simp [OrdBySet.get_specific_mut_modify, hgir, hfs, List.getElem?_eq_getElem hia]
      · simp [OrdBySet.contains_specific, hgir, hfs]

theorem natPeq_sup : ∀ a b : Nat, natPeq a b = true → natOrd a b = .eq := by
  intro a b hab
  have hab2 : a = b := by simpa [natPeq] using hab
  subst hab2
  exact Nat.compare_eq_eq.mpr rfl

theorem claim_C7_witness :
    OrdBySet.get_specific natPeq ⟨[1,2,2,3], natOrd⟩ 2 = some 2 := by
  have h := claim_C7_specific_access natPeq ⟨[1,2,2,3], natOrd⟩ 2 isSWO_natOrd
    (by decide) natPeq_sup
  simp only [show ([1,2,2,3] : List Nat).findIdx? (fun x => natPeq x 2) = some 1 from
    by decide] at h
  obtain ⟨hk, -, -, hget, -⟩ := h
  simpa using hget

theorem insert_storage_perm {T : Type} (s : OrdBySet T) (v : T) :
    (s.insert v).storage.Perm (v :: s.storage) := by
  show (s.storage.insertIdx (s.insertionPoint v) v).Perm (v :: s.storage)
  exact List.perm_insertIdx v s.storage (insertionPoint_le_length s v)

theorem insertAll_storage_perm {T : Type} (s : OrdBySet T) (items : List T) :
    (s.insertAll items).storage.Perm (items ++ s.storage) := by
  induction items generalizing s with
  | nil => exact List.Perm.refl _
  | cons v rest ih =>
    have h1 : (s.insertAll (v :: rest)).storage.Perm (rest ++ (s.insert v).storage) :=
      ih (s.insert v)
    refine h1.trans ?_
    have h2 : (rest ++ (s.insert v).storage).Perm (rest ++ (v :: s.storage)) :=
      (insert_storage_perm s v).append_left rest
    refine h2.trans ?_
    exact List.perm_middle

theorem take_slice_drop_eq {T : Type} (xs : List T) (a b : Nat) (hab : a ≤ b)
    (hbl : b ≤ xs.length) :
    xs.take a ++ ((xs.drop a).take (b - a) ++ xs.drop b) = xs := by
  have h1 : (xs.drop a).take (b - a) ++ (xs.drop a).drop (b - a) = xs.drop a :=
    List.take_append_drop (b - a) (xs.drop a)
  have h2 : (xs.drop a).drop (b - a) = xs.drop b := by
    rw [List.drop_drop]
    congr 1
    omega
  rw [← h2, h1]
  exact List.take_append_drop a xs

theorem mem_take_getElem {T : Type} (xs : List T) (a : Nat) (x : T)
    (hx : x ∈ xs.take a) : ∃ k, ∃ hk : k < xs.length, k < a ∧ xs[k] = x := by
  obtain ⟨m, hm, hmx⟩ := List.mem_iff_getElem.mp hx
  have hml : (xs.take a).length = min a xs.length := List.length_take a xs
  refine ⟨m, by omega, by omega, ?_⟩
  simpa using hmx

theorem mem_drop_getElem {T : Type} (xs : List T) (a : Nat) (x : T)
    (hx : x ∈ xs.drop a) : ∃ k, ∃ hk : k < xs.length, a ≤ k ∧ xs[k] = x := by
  obtain ⟨m, hm, hmx⟩ := List.mem_iff_getElem.mp hx
  have hml : (xs.drop a).length = xs.length - a := List.length_drop a xs
  refine ⟨a + m, by omega, by omega, ?_⟩
  simpa using hmx

theorem mem_slice_getElem {T : Type} (xs : List T) (a b : Nat) (x : T)
    (hx : x ∈ (xs.drop a).take (b - a)) :
    ∃ k, ∃ hk : k < xs.length, a ≤ k ∧ k < b ∧ xs[k] = x := by
  obtain ⟨m, hm2, ham, hmx⟩ := mem_take_getElem (xs.drop a) (b - a) x hx
  have hml : (xs.drop a).length = xs.length - a := List.length_drop a xs
  refine ⟨a + m, by omega, by omega, by omega, ?_⟩
  simpa using hmx

/-- On a sorted container, `count` equals the number of stored elements the
orderer considers equal to the probe. -/
theorem count_eq_countP {T : Type} (s : OrdBySet T) (item : T) (hswo : IsSWO s.orderer)
    (hs : SortedBy s.orderer s.storage) :
    s.count item = s.storage.countP (fun t => (s.orderer t item).isEq) := by
  have hg := gir_spec s item hswo hs
  cases hres : s.get_index_range_of item with
  | none =>
    simp only [hres] at hg
    have hzero : s.storage.countP (fun t => (s.orderer t item).isEq) = 0 := by
      rw [List.countP_eq_zero]
      intro x hx
      obtain ⟨n, hn, hxn⟩ := List.mem_iff_getElem.mp hx
      subst hxn
      simp [isEq_iff, hg n hn]
    simp [OrdBySet.count, hres, hzero]
  | some r =>
    obtain ⟨a, b⟩ := r
    simp only [hres] at hg
    obtain ⟨hab, hbl, hiff⟩ := hg
    have hsplit := take_slice_drop_eq s.storage a b (by omega) hbl
    have hcount : s.storage.countP (fun t => (s.orderer t item).isEq) = b - a := by
      conv_lhs => rw [← hsplit]
      rw [List.countP_append, List.countP_append]
      have h1 : (s.storage.take a).countP (fun t => (s.orderer t item).isEq) = 0 := by
        rw [List.countP_eq_zero]
        intro x hx
        obtain ⟨k, hk, hka, hkx⟩ := mem_take_getElem s.storage a x hx
        subst hkx
        have : ¬ (s.orderer s.storage[k] item = .eq) := by
          intro heq
          obtain ⟨h1, -⟩ := (hiff k hk).mpr heq
          omega
        simp [isEq_iff, this]
      have h2 : ((s.storage.drop a).take (b - a)).countP
          (fun t => (s.orderer t item).isEq) = b - a := by
        have hlen : ((s.storage.drop a).take (b - a)).length = b - a := by
          simp [List.length_take, List.length_drop]
          omega
        have hfull : ((s.storage.drop a).take (b - a)).countP
            (fun t => (s.orderer t item).isEq) =
            ((s.storage.drop a).take (b - a)).length := by
          rw [List.countP_eq_length]
          intro x hx
          obtain ⟨k, hk, hak, hkb, hkx⟩ := mem_slice_getElem s.storage a b x hx
          subst hkx
          exact (isEq_iff _).mpr ((hiff k hk).mp ⟨hak, hkb⟩)
        rw [hlen] at hfull
        exact hfull
      have h3 : (s.storage.drop b).countP (fun t => (s.orderer t item).isEq) = 0 := by
        rw [List.countP_eq_zero]
        intro x hx
        obtain ⟨k, hk, hbk, hkx⟩ := mem_drop_getElem s.storage b x hx
        subst hkx
        have : ¬ (s.orderer s.storage[k] item = .eq) := by
          intro heq
          obtain ⟨-, h2⟩ := (hiff k hk).mpr heq
          omega
        simp [isEq_iff, this]
      omega
    simp [OrdBySet.count, hres, hcount]

/-- C8: on a sorted container under a valid strict-weak-order orderer, draining a
probe and re-inserting every returned element yields a container holding the same
multiset of values (a permutation of the original storage) with the same count
for the probe. -/
theorem claim_C8_drain_round_trip {T : Type} (s : OrdBySet T) (x : T)
    (hswo : IsSWO s.orderer) (hs : SortedBy s.orderer s.storage) :
    ((s.drain x).2.insertAll (s.drain x).1).storage.Perm s.storage ∧
    ((s.drain x).2.insertAll (s.drain x).1).count x = s.count x := by
  obtain ⟨xs, ord⟩ := s
  simp only at hs hswo ⊢
  cases hres : OrdBySet.get_index_range_of ⟨xs, ord⟩ x with
  | none =>
    have hd : OrdBySet.drain ⟨xs, ord⟩ x = ([], ⟨xs, ord⟩) := by
      simp [OrdBySet.drain, hres]
    rw [hd]
    exact ⟨List.Perm.refl _, rfl⟩
  | some r =>
    obtain ⟨a, b⟩ := r
    have hg := gir_spec ⟨xs, ord⟩ x hswo hs
    simp only [hres] at hg
    obtain ⟨hab, hbl, hiff⟩ := hg
    have hd : OrdBySet.drain ⟨xs, ord⟩ x =
        ((xs.drop a).take (b - a), ⟨xs.take a ++ xs.drop b, ord⟩) := by
      simp [OrdBySet.drain, hres]
    rw [hd]
    have hsplit := take_slice_drop_eq xs a b (by omega) hbl
    have hremsub : (xs.take a ++ xs.drop b).Sublist xs := by
      conv_rhs => rw [← hsplit]
      exact List.Sublist.append_left (List.sublist_append_right _ _) _
    have hremsorted : SortedBy ord (xs.take a ++ xs.drop b) :=
      List.Pairwise.sublist hremsub hs
    have hperm : ((OrdBySet.insertAll ⟨xs.take a ++ xs.drop b, ord⟩
        ((xs.drop a).take (b - a))).storage).Perm xs := by
      refine (insertAll_storage_perm ⟨xs.take a ++ xs.drop b, ord⟩
        ((xs.drop a).take (b - a))).trans ?_
      refine List.perm_append_comm.trans ?_
      rw [List.append_assoc]
      refine (List.Perm.append_left (xs.take a) List.perm_append_comm).trans ?_
      rw [hsplit]
    have hord : (OrdBySet.insertAll ⟨xs.take a ++ xs.drop b, ord⟩
        ((xs.drop a).take (b - a))).orderer = ord :=
      insertAll_orderer ⟨xs.take a ++ xs.drop b, ord⟩ ((xs.drop a).take (b - a))
    have hsorted2 : SortedBy ord (OrdBySet.insertAll ⟨xs.take a ++ xs.drop b, ord⟩
        ((xs.drop a).take (b - a))).storage :=
      insertAll_sorted ⟨xs.take a ++ xs.drop b, ord⟩ ((xs.drop a).take (b - a))
        hswo hremsorted
    refine ⟨hperm, ?_⟩
    have hc1 := count_eq_countP (OrdBySet.insertAll ⟨xs.take a ++ xs.drop b, ord⟩
        ((xs.drop a).take (b - a))) x (by rw [hord]; exact hswo)
      (by rw [hord]; exact hsorted2)
    have hc2 := count_eq_countP ⟨xs, ord⟩ x hswo hs
    rw [hc1, hc2]
    simp only [hord]
    exact List.Perm.countP_eq _ hperm

theorem claim_C8_witness :
    ((OrdBySet.drain ⟨[1,2,2,3], natOrd⟩ 2).2.insertAll
        (OrdBySet.drain ⟨[1,2,2,3], natOrd⟩ 2).1).count 2 =
      OrdBySet.count ⟨[1,2,2,3], natOrd⟩ 2 :=
  (claim_C8_drain_round_trip ⟨[1,2,2,3], natOrd⟩ 2 isSWO_natOrd (by decide)).2
